import Mathlib

/-
Verification of the JERI_Chat message reconciliation and translation
pipeline.  The definitions below are a shallow embedding of the TypeScript
source:

  * src/types.ts                  (Message, TranslatedMessage, User)
  * src/services/chatSync.ts      (ChatSync.fetchHistory)
  * src/services/geminiService.ts (translateText)
  * src/App.tsx                   (processMessage, the initRoom history
                                   merge, the translation effect, and
                                   sendMessage)

JavaScript idioms are embedded as follows: `undefined` optional fields are
`Option`/`Bool` with `none`/`false` (every check the code performs on them
treats `undefined` exactly as `false`/absent); `Array.prototype.sort` with
comparator `(a, b) => a.timestamp - b.timestamp` is a stable sort by the
numeric key, embedded as a stable insertion sort; `Map` insertion keeps the
first position of a key and overwrites its value; asynchronous completion
handlers become explicit transition steps of a small-step system.
-/

namespace JeriChat

/-- Kernel-reducible embedding of String.prototype.startsWith, used in
place of the built-in String.startsWith (whose substring machinery does
not reduce): a string starts with pre when pre's characters are an initial
segment of its characters. -/
def strStartsWith (s pre : String) : Bool :=
  pre.data.isPrefixOf s.data

/-- Whitespace recognised by String.prototype.trim, restricted to the
ASCII whitespace characters. -/
def isWhitespaceChar (c : Char) : Bool :=
  c == ' ' || c == '\t' || c == '\n' || c == '\r'

/-- Kernel-reducible embedding of String.prototype.trim: drop whitespace
from both ends. -/
def strTrim (s : String) : String :=
  String.mk (((s.data.dropWhile isWhitespaceChar).reverse.dropWhile
    isWhitespaceChar).reverse)

/-- Message record from src/types.ts. -/
structure Message where
  id : String
  sender : String
  senderEmail : String
  senderLanguage : String
  text : String
  timestamp : Nat
deriving DecidableEq

/-- TranslatedMessage from src/types.ts: a Message plus the transient
translation annotation.  Both annotation fields are optional in the
source; an absent field is embedded as none / false. -/
structure TranslatedMessage extends Message where
  translatedText : Option String
  isTranslating : Bool
deriving DecidableEq

/-- The parts of the session user that the pipeline reads. -/
structure User where
  username : String
  email : String
  preferredLanguage : String
deriving DecidableEq

/-- Row shape of the supabase messages table consumed by chatSync.ts;
created_at is embedded as its getTime value in milliseconds. -/
structure DbRow where
  id : String
  room_id : String
  sender_email : String
  sender_username : String
  sender_language : String
  text : String
  created_at : Nat
deriving DecidableEq

/-- Stable insertion of an element into a list ordered by a numeric key:
the element goes in front of the first element with a key that is not
smaller.  Ties keep the inserted (originally earlier) element first, the
behaviour of the stable JavaScript Array.prototype.sort. -/
def insertByKey {α : Type} (key : α → Nat) (a : α) : List α → List α
  | [] => [a]
  | b :: l => if key a ≤ key b then a :: b :: l else b :: insertByKey key a l

/-- Stable sort by a numeric key, embedding the stable JavaScript
Array.prototype.sort with a numeric comparator. -/
def sortByKey {α : Type} (key : α → Nat) : List α → List α
  | [] => []
  | a :: l => insertByKey key a (sortByKey key l)

/-- Conversion of a database row to a Message, as in the map at the end of
ChatSync.fetchHistory (src/services/chatSync.ts lines 116 to 123). -/
def rowToMessage (r : DbRow) : Message :=
  { id := r.id
    sender := r.sender_username
    senderEmail := r.sender_email
    senderLanguage := r.sender_language
    text := r.text
    timestamp := r.created_at }

/-- ChatSync.fetchHistory (src/services/chatSync.ts lines 103 to 124):
selects the rows of the room, orders them by created_at ascending, limits
the result to 50 rows, and maps each row to a Message.  The supabase query
is embedded as filter, stable sort ascending by created_at, take 50. -/
def fetchHistory (table : List DbRow) (roomId : String) : List Message :=
  ((sortByKey DbRow.created_at (table.filter (fun r => r.room_id == roomId))).take 50).map
    rowToMessage

/-- The sort applied by the pipeline to the message list:
sort((a, b) => a.timestamp - b.timestamp). -/
def sortByTimestamp (l : List TranslatedMessage) : List TranslatedMessage :=
  sortByKey (fun m => m.timestamp) l

/-- The temp-placeholder match of processMessage (src/App.tsx lines
115 to 119): same sender email and same text as the incoming message, and
an id starting with temp-. -/
def isTempMatch (incoming : Message) (m : TranslatedMessage) : Bool :=
  strStartsWith m.id "temp-" && m.senderEmail == incoming.senderEmail &&
    m.text == incoming.text

/-- Array.prototype.findIndex, with -1 embedded as none. -/
def findIndexP {α : Type} (p : α → Bool) : List α → Option Nat
  | [] => none
  | a :: l => if p a then some 0 else (findIndexP p l).map (· + 1)

/-- The TranslatedMessage built by processMessage (src/App.tsx lines
121 to 124) for an incoming live message: isTranslating is set exactly
when the sender language differs from the viewer language and the sender
email differs from the viewer email; no translatedText is attached. -/
def liveAsTranslated (user : User) (msg : Message) : TranslatedMessage :=
  { toMessage := msg
    translatedText := none
    isTranslating :=
      msg.senderLanguage != user.preferredLanguage && msg.senderEmail != user.email }

/-- processMessage (src/App.tsx lines 108 to 135), the admit-from-live
operation: discard when the id is already present; otherwise replace the
first matching temp placeholder in place, or append; finally re-sort by
timestamp. -/
def processMessage (user : User) (prev : List TranslatedMessage) (msg : Message) :
    List TranslatedMessage :=
  if prev.any (fun m => m.id == msg.id) then prev
  else
    let newMessage := liveAsTranslated user msg
    match findIndexP (isTempMatch msg) prev with
    | some i => sortByTimestamp (prev.set i newMessage)
    | none => sortByTimestamp (prev ++ [newMessage])

/-- The cast of a history Message to a TranslatedMessage in initRoom
(src/App.tsx line 152): the annotation fields are simply absent, so they
are embedded as none / false. -/
def histAsTranslated (m : Message) : TranslatedMessage :=
  { toMessage := m
    translatedText := none
    isTranslating := false }

/-- One Map.set step of the initRoom merge: an existing entry for the id
is overwritten in place, a fresh id is appended.  On accumulators with
unique ids (the only ones the fold below produces) this is exactly the
JavaScript Map behaviour. -/
def setKeyed (acc : List TranslatedMessage) (m : TranslatedMessage) :
    List TranslatedMessage :=
  if acc.any (fun x => x.id == m.id) then
    acc.map (fun x => if x.id == m.id then m else x)
  else acc ++ [m]

/-- The values of the id-keyed Map built by forEach and read back in key
insertion order. -/
def mapValues (l : List TranslatedMessage) : List TranslatedMessage :=
  l.foldl setKeyed []

/-- The admit-from-history merge of initRoom (src/App.tsx lines 150 to
154): fetched history first, then the in-memory list, folded into an
id-keyed Map so that a later entry for a duplicate id overwrites an
earlier one, then sorted by timestamp. -/
def mergeHistory (history : List Message) (prev : List TranslatedMessage) :
    List TranslatedMessage :=
  sortByTimestamp (mapValues (history.map histAsTranslated ++ prev))

/-- The optimistic message synthesized by sendMessage (src/App.tsx lines
188 to 197) at local time now. -/
def optimisticMessage (user : User) (text : String) (now : Nat) : TranslatedMessage :=
  { id := "temp-" ++ toString now
    sender := user.username
    senderEmail := user.email
    senderLanguage := user.preferredLanguage
    text := text
    timestamp := now
    translatedText := none
    isTranslating := false }

/-- Outcome of the chatSync.sendMessage persistence call, as observed by
the caller: resolved, or rejected with an error message. -/
inductive SendOutcome
  | ok
  | fail (errMessage : String)
deriving DecidableEq

/-- The component state touched by sendMessage. -/
structure AppState where
  messages : List TranslatedMessage
  inputText : String
  error : Option String
deriving DecidableEq

/-- sendMessage (src/App.tsx lines 179 to 214): guard on a blank draft,
clear the input and the error, append the optimistic message, then either
keep it (persistence resolved) or remove it by id, restore the draft and
surface the error (persistence rejected). -/
def sendMessage (user : User) (now : Nat) (outcome : SendOutcome) (s : AppState) :
    AppState :=
  if strTrim s.inputText == "" then s
  else
    let textToSubmit := s.inputText
    let tempId := "temp-" ++ toString now
    let appended : AppState :=
      { messages := s.messages ++ [optimisticMessage user textToSubmit now]
        inputText := ""
        error := none }
    match outcome with
    | SendOutcome.ok => appended
    | SendOutcome.fail e =>
        { messages := appended.messages.filter (fun m => m.id != tempId)
          inputText := textToSubmit
          error := some ("Send Failed: " ++ e) }

/-- Outcome of one generateContent call of the translation gateway: a
response whose text field may be absent, or a thrown error. -/
inductive GatewayOutcome
  | ok (responseText : Option String)
  | err
deriving DecidableEq

/-- translateText (src/services/geminiService.ts lines 5 to 47): throws
only when the API key is missing; a gateway error is caught inside and the
original text is returned; an absent or blank response text also falls
back to the original text, otherwise the trimmed response is returned. -/
def translateText (apiKey : Option String) (text : String) (g : GatewayOutcome) :
    Except String String :=
  match apiKey with
  | none => Except.error "API key is missing"
  | some _ =>
    match g with
    | GatewayOutcome.ok r =>
        let t := strTrim (r.getD "")
        Except.ok (if t == "" then text else t)
    | GatewayOutcome.err => Except.ok text

/-- JavaScript truthiness of the optional translatedText field:
!m.translatedText is true when the field is absent or the empty string. -/
def jsFalsyText : Option String → Bool
  | none => true
  | some s => s == ""

/-- The scan of the translation effect (src/App.tsx line 90):
messages.find of the first message with isTranslating set and a falsy
translatedText. -/
def findUntranslated (l : List TranslatedMessage) : Option TranslatedMessage :=
  l.find? (fun m => m.isTranslating && jsFalsyText m.translatedText)

/-- The state update of a resolved translation (src/App.tsx line 98):
set translatedText and clear isTranslating on the message with the
captured id. -/
def applyTranslationOk (id0 : String) (translated : String)
    (l : List TranslatedMessage) : List TranslatedMessage :=
  l.map (fun m =>
    if m.id == id0 then
      { m with translatedText := some translated, isTranslating := false }
    else m)

/-- The state update of the catch branch (src/App.tsx line 101): clear
isTranslating and fall back to the captured original text. -/
def applyTranslationErr (id0 : String) (originalText : String)
    (l : List TranslatedMessage) : List TranslatedMessage :=
  l.map (fun m =>
    if m.id == id0 then
      { m with translatedText := some originalText, isTranslating := false }
    else m)

/-- One complete run of the translation effect body (src/App.tsx lines
89 to 106) together with the completion of the request it starts: find the
first untranslated message, call the gateway, and apply the resolved or
the caught update.  The effect never touches the error state and never
rethrows; both facts are visible in the definition. -/
def doTranslation (apiKey : Option String) (g : GatewayOutcome) (s : AppState) :
    AppState :=
  match findUntranslated s.messages with
  | none => s
  | some u =>
    match translateText apiKey u.text g with
    | Except.ok translated =>
        { s with messages := applyTranslationOk u.id translated s.messages }
    | Except.error _ =>
        { s with messages := applyTranslationErr u.id u.text s.messages }

/-- An outstanding translation request, carrying the id and the original
text captured by the effect closure when it started the request. -/
structure TransReq where
  id : String
  text : String
deriving DecidableEq

/-- State of the pipeline as a transition system: the message list plus
the multiset of outstanding translation requests. -/
structure PipeState where
  messages : List TranslatedMessage
  pending : List TransReq
deriving DecidableEq

/-- Small-step semantics of the pipeline.  List mutations (live admission,
history merge, optimistic append, rollback of a rejected send) may occur
at any point; the translation effect (scan) may run after any mutation and
starts a request for the first untranslated message without waiting for
outstanding requests, because the source effect has no in-flight guard;
a request completes (resolved or caught) at an arbitrary later point.
Every interleaving the React runtime can produce is a trace of this
relation. -/
inductive PipeStep (user : User) : PipeState → PipeState → Prop
  | live (s : PipeState) (msg : Message) :
      PipeStep user s
        { messages := processMessage user s.messages msg, pending := s.pending }
  | history (s : PipeState) (h : List Message) :
      PipeStep user s
        { messages := mergeHistory h s.messages, pending := s.pending }
  | send (s : PipeState) (text : String) (now : Nat) (hne : strTrim text ≠ "") :
      PipeStep user s
        { messages := s.messages ++ [optimisticMessage user text now]
          pending := s.pending }
  | rollback (s : PipeState) (now : Nat) :
      PipeStep user s
        { messages := s.messages.filter (fun m => m.id != "temp-" ++ toString now)
          pending := s.pending }
  | scan (s : PipeState) (u : TranslatedMessage)
      (hu : findUntranslated s.messages = some u) :
      PipeStep user s
        { messages := s.messages
          pending := s.pending ++ [{ id := u.id, text := u.text }] }
  | finishOk (s : PipeState) (r : TransReq) (translated : String)
      (hr : r ∈ s.pending) :
      PipeStep user s
        { messages := applyTranslationOk r.id translated s.messages
          pending := s.pending.erase r }
  | finishErr (s : PipeState) (r : TransReq) (hr : r ∈ s.pending) :
      PipeStep user s
        { messages := applyTranslationErr r.id r.text s.messages
          pending := s.pending.erase r }

/-- Reachability of a pipeline state from the empty room state. -/
def Reachable (user : User) (s : PipeState) : Prop :=
  Relation.ReflTransGen (PipeStep user) { messages := [], pending := [] } s

/-- The ids of a message list, in order. -/
def idsOf (l : List TranslatedMessage) : List String :=
  l.map (fun m => m.id)

/-- Boolean check that a message list is in non-decreasing timestamp
order. -/
def sortedByTsB : List TranslatedMessage → Bool
  | [] => true
  | [_] => true
  | a :: b :: l => decide (a.timestamp ≤ b.timestamp) && sortedByTsB (b :: l)

/-- One admission operation of the reconciliation pipeline: a resolved
history fetch or one live-channel event. -/
inductive AdmitOp
  | hist (h : List Message)
  | live (m : Message)

/-- Apply one admission operation to the current message list. -/
def applyAdmit (user : User) (s : List TranslatedMessage) : AdmitOp → List TranslatedMessage
  | AdmitOp.hist h => mergeHistory h s
  | AdmitOp.live m => processMessage user s m

/-- Run a sequence of admission operations starting from the empty room
list, as set by initRoom before any admission. -/
def runAdmits (user : User) (ops : List AdmitOp) : List TranslatedMessage :=
  ops.foldl (applyAdmit user) []

/-- Fixture viewer: English reader. -/
def viewer : User :=
  { username := "v", email := "v@x", preferredLanguage := "en" }

/-- Fixture: a Spanish message from another user. -/
def spanishMsg : Message :=
  { id := "1", sender := "alice", senderEmail := "a@x", senderLanguage := "es"
    text := "hola", timestamp := 100 }

/-- Fixture: a French message from a third user. -/
def frenchMsg : Message :=
  { id := "2", sender := "bob", senderEmail := "b@x", senderLanguage := "fr"
    text := "salut", timestamp := 200 }

/-- Fixture: the viewer's own message as confirmed by the store. -/
def liveSelfHi : Message :=
  { id := "42", sender := "v", senderEmail := "v@x", senderLanguage := "en"
    text := "hi", timestamp := 205 }

/-- Fixture: an optimistic temp placeholder for the viewer's second
identical send. -/
def placeholderHi : TranslatedMessage :=
  { id := "temp-200", sender := "v", senderEmail := "v@x", senderLanguage := "en"
    text := "hi", timestamp := 200, translatedText := none, isTranslating := false }

/-- Fixture: the already-admitted confirmed row with the server id. -/
def confirmedHi : TranslatedMessage :=
  { toMessage := liveSelfHi, translatedText := none, isTranslating := false }

/-- Fixture: the viewer's already-annotated copy of the Spanish message. -/
def annotatedSpanish : TranslatedMessage :=
  { toMessage := spanishMsg, translatedText := some "hello", isTranslating := false }

/-- Fixture: one persisted row of room R at creation time n. -/
def histRow (n : Nat) : DbRow :=
  { id := toString n, room_id := "R", sender_email := "a@x"
    sender_username := "alice", sender_language := "es", text := "hola"
    created_at := n }

/-- Fixture: a room table of 51 rows at creation times 0 to 50. -/
def histTable : List DbRow :=
  (List.range 51).map histRow

/-- Fixture: a component state with one message waiting for
translation. -/
def translatingState : AppState :=
  { messages := [liveAsTranslated viewer spanishMsg], inputText := "", error := none }

/-- Fixture: pipeline state after admitting the Spanish message. -/
def pipe1 : PipeState :=
  { messages := processMessage viewer [] spanishMsg, pending := [] }

/-- Fixture: the request the effect issues for the Spanish message. -/
def reqHola : TransReq :=
  { id := "1", text := "hola" }

/-- Fixture: pipeline state after the effect started the first request. -/
def pipe2 : PipeState :=
  { messages := pipe1.messages, pending := [reqHola] }

/-- Fixture: pipeline state after the French message is admitted while
the first request is still outstanding. -/
def pipe3 : PipeState :=
  { messages := processMessage viewer pipe2.messages frenchMsg, pending := pipe2.pending }

/-- Fixture: pipeline state after the effect ran again on the changed
list, issuing a second request while the first is still outstanding. -/
def pipe4 : PipeState :=
  { messages := pipe3.messages, pending := pipe3.pending ++ [reqHola] }

/-- Inserting by key produces a permutation of consing. -/
theorem insertByKey_perm {α : Type} (key : α → Nat) (a : α) (l : List α) :
    (insertByKey key a l).Perm (a :: l) := by
  induction l with
  | nil => simp [insertByKey]
  | cons b t ih =>
    by_cases h : key a ≤ key b
    · simp [insertByKey, h]
    · simp only [insertByKey, if_neg h]
      exact (ih.cons b).trans (List.Perm.swap a b t)

/-- The stable sort is a permutation of its input. -/
theorem sortByKey_perm {α : Type} (key : α → Nat) (l : List α) :
    (sortByKey key l).Perm l := by
  induction l with
  | nil => simp [sortByKey]
  | cons a t ih =>
    exact (insertByKey_perm key a (sortByKey key t)).trans (ih.cons a)

/-- Membership is unchanged by the stable sort. -/
theorem mem_sortByKey {α : Type} {key : α → Nat} {x : α} {l : List α} :
    x ∈ sortByKey key l ↔ x ∈ l :=
  (sortByKey_perm key l).mem_iff

/-- Inserting by key preserves sortedness by that key. -/
theorem pairwise_insertByKey {α : Type} (key : α → Nat) (a : α) {l : List α}
    (h : l.Pairwise (fun x y => key x ≤ key y)) :
    (insertByKey key a l).Pairwise (fun x y => key x ≤ key y) := by
  induction l with
  | nil => simp [insertByKey]
  | cons b t ih =>
    rcases List.pairwise_cons.1 h with ⟨hb, ht⟩
    by_cases hab : key a ≤ key b
    · simp only [insertByKey, if_pos hab]
      refine List.pairwise_cons.2 ⟨?_, h⟩
      intro y hy
      rcases List.mem_cons.1 hy with rfl | hy
      · exact hab
      · exact le_trans hab (hb y hy)
    · simp only [insertByKey, if_neg hab]
      refine List.pairwise_cons.2 ⟨?_, ih ht⟩
      intro y hy
      rcases List.mem_cons.1 ((insertByKey_perm key a t).mem_iff.1 hy) with rfl | h1
      · exact le_of_lt (Nat.lt_of_not_le hab)
      · exact hb y h1

/-- The stable sort is sorted by its key. -/
theorem pairwise_sortByKey {α : Type} (key : α → Nat) (l : List α) :
    (sortByKey key l).Pairwise (fun x y => key x ≤ key y) := by
  induction l with
  | nil => simp [sortByKey]
  | cons a t ih => exact pairwise_insertByKey key a ih

/-- Elements of a list after a positional update come from the update or
from the original list. -/
theorem mem_set_cases {α : Type} {l : List α} {i : Nat} {a x : α}
    (h : x ∈ l.set i a) : x = a ∨ x ∈ l := by
  induction l generalizing i with
  | nil => simp [List.set] at h
  | cons b t ih =>
    cases i with
    | zero =>
      rcases List.mem_cons.1 h with rfl | h1
      · exact Or.inl rfl
      · exact Or.inr (List.mem_cons_of_mem b h1)
    | succ j =>
      rcases List.mem_cons.1 h with rfl | h1
      · exact Or.inr (List.mem_cons_self x t)
      · rcases ih h1 with h2 | h2
        · exact Or.inl h2
        · exact Or.inr (List.mem_cons_of_mem b h2)

/-- A positional update within bounds puts the new element in the list. -/
theorem mem_set_self {α : Type} {l : List α} {i : Nat} (hi : i < l.length)
    (a : α) : a ∈ l.set i a := by
  induction l generalizing i with
  | nil => simp at hi
  | cons b t ih =>
    cases i with
    | zero => exact List.mem_cons_self a t
    | succ j =>
      exact List.mem_cons_of_mem b (ih (Nat.lt_of_succ_lt_succ hi))

/-- A positional update with a fresh element preserves freedom from
duplicates. -/
theorem nodup_set {α : Type} {l : List α} {i : Nat} {a : α}
    (h1 : l.Nodup) (h2 : a ∉ l) : (l.set i a).Nodup := by
  induction l generalizing i with
  | nil => simp [List.set]
  | cons b t ih =>
    rcases List.nodup_cons.1 h1 with ⟨hb, ht⟩
    cases i with
    | zero =>
      refine List.nodup_cons.2 ⟨?_, ht⟩
      intro hmem
      exact h2 (List.mem_cons_of_mem b hmem)
    | succ j =>
      refine List.nodup_cons.2 ⟨?_, ih ht (fun hx => h2 (List.mem_cons_of_mem b hx))⟩
      intro hmem
      rcases mem_set_cases hmem with rfl | hmem2
      · exact h2 (List.mem_cons_self b t)
      · exact hb hmem2

/-- After updating position i with a different element, the original
element of a duplicate-free list at position i is gone. -/
theorem get_not_mem_set {α : Type} {l : List α} {i : Nat} (hi : i < l.length)
    {a : α} (h1 : l.Nodup) (hne : l.get ⟨i, hi⟩ ≠ a) :
    l.get ⟨i, hi⟩ ∉ l.set i a := by
  induction l generalizing i with
  | nil => simp at hi
  | cons b t ih =>
    rcases List.nodup_cons.1 h1 with ⟨hb, ht⟩
    cases i with
    | zero =>
      intro hmem
      rcases List.mem_cons.1 hmem with h2 | h2
      · exact hne h2
      · exact hb h2
    | succ j =>
      intro hmem
      have hj : j < t.length := Nat.lt_of_succ_lt_succ hi
      rcases List.mem_cons.1 hmem with h2 | h2
      · exact hb (h2 ▸ List.get_mem t j hj)
      · exact ih hj ht hne h2

/-- A successful findIndex points inside the list at an element satisfying
the test. -/
theorem findIndexP_some {α : Type} {p : α → Bool} {l : List α} {i : Nat}
    (h : findIndexP p l = some i) :
    ∃ hi : i < l.length, p (l.get ⟨i, hi⟩) = true := by
  induction l generalizing i with
  | nil => simp [findIndexP] at h
  | cons a t ih =>
    by_cases hp : p a
    · simp only [findIndexP, if_pos hp, Option.some.injEq] at h
      subst h
      exact ⟨Nat.succ_pos t.length, hp⟩
    · simp only [findIndexP, if_neg hp, Option.map_eq_some'] at h
      rcases h with ⟨j, hj, rfl⟩
      rcases ih hj with ⟨hjl, hpj⟩
      exact ⟨Nat.succ_lt_succ hjl, hpj⟩

/-- An id is in idsOf exactly when a message of the list carries it. -/
theorem mem_idsOf {l : List TranslatedMessage} {i : String} :
    i ∈ idsOf l ↔ ∃ m ∈ l, m.id = i := by
  unfold idsOf
  exact List.mem_map

/-- The any-check of processMessage and setKeyed read as membership of the
id. -/
theorem any_id_eq_true {l : List TranslatedMessage} {i : String} :
    l.any (fun m => m.id == i) = true ↔ i ∈ idsOf l := by
  rw [List.any_eq_true, mem_idsOf]
  constructor
  · rintro ⟨m, hm, hbeq⟩
    exact ⟨m, hm, eq_of_beq hbeq⟩
  · rintro ⟨m, hm, heq⟩
    exact ⟨m, hm, beq_iff_eq.2 heq⟩

/-- One Map.set step only adds the inserted message. -/
theorem mem_setKeyed_cases {acc : List TranslatedMessage}
    {m x : TranslatedMessage} (h : x ∈ setKeyed acc m) : x ∈ acc ∨ x = m := by
  unfold setKeyed at h
  by_cases hc : acc.any (fun y => y.id == m.id)
  · rw [if_pos hc] at h
    rcases List.mem_map.1 h with ⟨y, hy, hxy⟩
    by_cases hid : y.id == m.id
    · rw [if_pos hid] at hxy
      exact Or.inr hxy.symm
    · rw [if_neg hid] at hxy
      exact Or.inl (hxy ▸ hy)
  · rw [if_neg hc] at h
    rcases List.mem_append.1 h with h1 | h1
    · exact Or.inl h1
    · exact Or.inr (List.mem_singleton.1 h1)

/-- The inserted message is always present after a Map.set step. -/
theorem self_mem_setKeyed (acc : List TranslatedMessage)
    (m : TranslatedMessage) : m ∈ setKeyed acc m := by
  unfold setKeyed
  by_cases hc : acc.any (fun y => y.id == m.id)
  · rw [if_pos hc]
    rcases List.any_eq_true.1 hc with ⟨y, hy, hym⟩
    exact List.mem_map.2 ⟨y, hy, by rw [if_pos hym]⟩
  · rw [if_neg hc]
    exact List.mem_append.2 (Or.inr (List.mem_singleton.2 rfl))

/-- A Map.set step on a present key keeps the id sequence. -/
theorem idsOf_setKeyed_present {acc : List TranslatedMessage}
    {m : TranslatedMessage} (hc : acc.any (fun y => y.id == m.id) = true) :
    idsOf (setKeyed acc m) = idsOf acc := by
  unfold setKeyed
  rw [if_pos hc]
  unfold idsOf
  rw [List.map_map]
  refine List.map_congr_left ?_
  intro x _
  by_cases hid : x.id == m.id
  · simp only [Function.comp, if_pos hid]
    exact (eq_of_beq hid).symm
  · simp only [Function.comp, if_neg hid]

/-- A Map.set step on an absent key appends the id. -/
theorem idsOf_setKeyed_absent {acc : List TranslatedMessage}
    {m : TranslatedMessage} (hc : acc.any (fun y => y.id == m.id) = false) :
    idsOf (setKeyed acc m) = idsOf acc ++ [m.id] := by
  unfold setKeyed
  rw [hc]
  simp [idsOf]

/-- A Map.set step preserves uniqueness of the ids. -/
theorem nodup_ids_setKeyed {acc : List TranslatedMessage}
    {m : TranslatedMessage} (h : (idsOf acc).Nodup) :
    (idsOf (setKeyed acc m)).Nodup := by
  by_cases hc : acc.any (fun y => y.id == m.id)
  · rw [idsOf_setKeyed_present hc]
    exact h
  · rw [idsOf_setKeyed_absent (by simpa using hc)]
    refine List.Nodup.append h (List.nodup_singleton m.id) ?_
    intro i hi him
    rcases List.mem_singleton.1 him with rfl
    exact hc (any_id_eq_true.2 hi)

/-- Folding Map.set steps over a list only produces messages of the
accumulator or of the list. -/
theorem mem_foldl_setKeyed {l : List TranslatedMessage}
    {acc : List TranslatedMessage} {x : TranslatedMessage}
    (h : x ∈ List.foldl setKeyed acc l) : x ∈ acc ∨ x ∈ l := by
  induction l generalizing acc with
  | nil => exact Or.inl h
  | cons m t ih =>
    rcases ih h with h1 | h1
    · rcases mem_setKeyed_cases h1 with h2 | h2
      · exact Or.inl h2
      · exact Or.inr (h2 ▸ List.mem_cons_self m t)
    · exact Or.inr (List.mem_cons_of_mem m h1)

/-- Folding Map.set steps preserves uniqueness of the accumulator ids. -/
theorem nodup_ids_foldl_setKeyed (l : List TranslatedMessage)
    {acc : List TranslatedMessage} (h : (idsOf acc).Nodup) :
    (idsOf (List.foldl setKeyed acc l)).Nodup := by
  induction l generalizing acc with
  | nil => exact h
  | cons m t ih => exact ih (nodup_ids_setKeyed h)

/-- The values of the Map built by the initRoom merge have unique ids. -/
theorem nodup_ids_mapValues (l : List TranslatedMessage) :
    (idsOf (mapValues l)).Nodup :=
  nodup_ids_foldl_setKeyed l (by simp [idsOf])

/-- An accumulator entry whose id never recurs in the remaining input
survives the fold untouched. -/
theorem mem_foldl_setKeyed_of_fresh {l : List TranslatedMessage}
    {acc : List TranslatedMessage} {x : TranslatedMessage} (hx : x ∈ acc)
    (hfresh : ∀ m ∈ l, m.id ≠ x.id) : x ∈ List.foldl setKeyed acc l := by
  induction l generalizing acc with
  | nil => exact hx
  | cons m t ih =>
    refine ih ?_ (fun y hy => hfresh y (List.mem_cons_of_mem m hy))
    have hne : m.id ≠ x.id := hfresh m (List.mem_cons_self m t)
    unfold setKeyed
    by_cases hc : acc.any (fun y => y.id == m.id)
    · rw [if_pos hc]
      refine List.mem_map.2 ⟨x, hx, ?_⟩
      rw [if_neg (by simpa using fun he => hne he.symm)]
    · rw [if_neg hc]
      exact List.mem_append.2 (Or.inl hx)

/-- Every element of a list with unique ids survives the fold of Map.set
steps over that list. -/
theorem mem_self_foldl_setKeyed {ms : List TranslatedMessage}
    (hnodup : (idsOf ms).Nodup) (acc : List TranslatedMessage) :
    ∀ m ∈ ms, m ∈ List.foldl setKeyed acc ms := by
  induction ms generalizing acc with
  | nil => intro m hm; simp at hm
  | cons m0 t ih =>
    have hids : m0.id ∉ idsOf t ∧ (idsOf t).Nodup := by
      simpa [idsOf] using hnodup
    intro m hm
    rcases List.mem_cons.1 hm with rfl | hm1
    · simp only [List.foldl_cons]
      refine mem_foldl_setKeyed_of_fresh (self_mem_setKeyed acc m) ?_
      intro y hy he
      exact hids.1 (mem_idsOf.2 ⟨y, hy, he⟩)
    · simp only [List.foldl_cons]
      exact ih hids.2 (setKeyed acc m0) m hm1

/-- The id sequence of the sorted list is a permutation of the unsorted
one. -/
theorem idsOf_sortByTimestamp_perm (l : List TranslatedMessage) :
    (idsOf (sortByTimestamp l)).Perm (idsOf l) := by
  unfold idsOf sortByTimestamp
  exact (sortByKey_perm (fun m => m.timestamp) l).map (fun m => m.id)

/-- Membership is unchanged by the timestamp sort. -/
theorem mem_sortByTimestamp {x : TranslatedMessage} {l : List TranslatedMessage} :
    x ∈ sortByTimestamp l ↔ x ∈ l := by
  unfold sortByTimestamp
  exact mem_sortByKey

/-- processMessage on an already-present id discards the event. -/
theorem processMessage_eq_of_dup {user : User} {prev : List TranslatedMessage}
    {msg : Message} (hc : prev.any (fun m => m.id == msg.id) = true) :
    processMessage user prev msg = prev := by
  unfold processMessage
  rw [if_pos hc]

/-- processMessage on a fresh id with a temp match replaces in place and
re-sorts. -/
theorem processMessage_eq_replace {user : User} {prev : List TranslatedMessage}
    {msg : Message} {i : Nat} (hc : prev.any (fun m => m.id == msg.id) = false)
    (hf : findIndexP (isTempMatch msg) prev = some i) :
    processMessage user prev msg =
      sortByTimestamp (prev.set i (liveAsTranslated user msg)) := by
  unfold processMessage
  rw [if_neg (by simp [hc]), hf]

/-- processMessage on a fresh id without a temp match appends and
re-sorts. -/
theorem processMessage_eq_append {user : User} {prev : List TranslatedMessage}
    {msg : Message} (hc : prev.any (fun m => m.id == msg.id) = false)
    (hf : findIndexP (isTempMatch msg) prev = none) :
    processMessage user prev msg =
      sortByTimestamp (prev ++ [liveAsTranslated user msg]) := by
  unfold processMessage
  rw [if_neg (by simp [hc]), hf]

/-- Admission from the live channel only adds the freshly built message. -/
theorem processMessage_mem_cases {user : User} {prev : List TranslatedMessage}
    {msg : Message} {x : TranslatedMessage}
    (h : x ∈ processMessage user prev msg) :
    x = liveAsTranslated user msg ∨ x ∈ prev := by
  by_cases hc : prev.any (fun m => m.id == msg.id)
  · rw [processMessage_eq_of_dup hc] at h
    exact Or.inr h
  · have hc2 : prev.any (fun m => m.id == msg.id) = false := Bool.eq_false_iff.2 hc
    cases hfind : findIndexP (isTempMatch msg) prev with
    | some i =>
      rw [processMessage_eq_replace hc2 hfind] at h
      rcases mem_set_cases (mem_sortByTimestamp.1 h) with h1 | h1
      · exact Or.inl h1
      · exact Or.inr h1
    | none =>
      rw [processMessage_eq_append hc2 hfind] at h
      rcases List.mem_append.1 (mem_sortByTimestamp.1 h) with h1 | h1
      · exact Or.inr h1
      · exact Or.inl (List.mem_singleton.1 h1)

/-- After admission from the live channel, some message carries the
incoming id. -/
theorem processMessage_id_mem (user : User) (prev : List TranslatedMessage)
    (msg : Message) : ∃ x ∈ processMessage user prev msg, x.id = msg.id := by
  by_cases hc : prev.any (fun m => m.id == msg.id)
  · rw [processMessage_eq_of_dup hc]
    rcases List.any_eq_true.1 hc with ⟨y, hy, hbeq⟩
    exact ⟨y, hy, eq_of_beq hbeq⟩
  · have hc2 : prev.any (fun m => m.id == msg.id) = false := Bool.eq_false_iff.2 hc
    cases hfind : findIndexP (isTempMatch msg) prev with
    | some i =>
      rw [processMessage_eq_replace hc2 hfind]
      rcases findIndexP_some hfind with ⟨hi, _⟩
      exact ⟨liveAsTranslated user msg,
        mem_sortByTimestamp.2 (mem_set_self hi _), rfl⟩
    | none =>
      rw [processMessage_eq_append hc2 hfind]
      exact ⟨liveAsTranslated user msg,
        mem_sortByTimestamp.2 (List.mem_append.2 (Or.inr (List.mem_singleton.2 rfl))),
        rfl⟩

/-- Admission from the live channel preserves uniqueness of the ids. -/
theorem nodup_ids_processMessage (user : User) {prev : List TranslatedMessage}
    (msg : Message) (h : (idsOf prev).Nodup) :
    (idsOf (processMessage user prev msg)).Nodup := by
  by_cases hc : prev.any (fun m => m.id == msg.id)
  · rw [processMessage_eq_of_dup hc]
    exact h
  · have hc2 : prev.any (fun m => m.id == msg.id) = false := Bool.eq_false_iff.2 hc
    have hnot : msg.id ∉ idsOf prev := fun hmem => hc (any_id_eq_true.2 hmem)
    cases hfind : findIndexP (isTempMatch msg) prev with
    | some i =>
      rw [processMessage_eq_replace hc2 hfind]
      refine ((idsOf_sortByTimestamp_perm _).nodup_iff).2 ?_
      have hset : idsOf (prev.set i (liveAsTranslated user msg)) =
          (idsOf prev).set i msg.id := by
        unfold idsOf
        rw [List.map_set]
        rfl
      rw [hset]
      exact nodup_set h hnot
    | none =>
      rw [processMessage_eq_append hc2 hfind]
      refine ((idsOf_sortByTimestamp_perm _).nodup_iff).2 ?_
      have happ : idsOf (prev ++ [liveAsTranslated user msg]) =
          idsOf prev ++ [msg.id] := by
        unfold idsOf
        rw [List.map_append]
        rfl
      rw [happ]
      refine List.Nodup.append h (List.nodup_singleton msg.id) ?_
      intro z hz hzm
      rcases List.mem_singleton.1 hzm with rfl
      exact hnot hz

/-- Admitting the same live message twice changes nothing the second
time. -/
theorem processMessage_idem (user : User) (prev : List TranslatedMessage)
    (msg : Message) :
    processMessage user (processMessage user prev msg) msg =
      processMessage user prev msg := by
  rcases processMessage_id_mem user prev msg with ⟨x, hx, hid⟩
  apply processMessage_eq_of_dup
  exact List.any_eq_true.2 ⟨x, hx, beq_iff_eq.2 hid⟩

/-- Admission from history only adds history rows. -/
theorem mem_mergeHistory_cases {h : List Message} {prev : List TranslatedMessage}
    {x : TranslatedMessage} (hx : x ∈ mergeHistory h prev) :
    (∃ m ∈ h, x = histAsTranslated m) ∨ x ∈ prev := by
  unfold mergeHistory at hx
  have hx2 := mem_sortByTimestamp.1 hx
  unfold mapValues at hx2
  rcases mem_foldl_setKeyed hx2 with h1 | h1
  · simp at h1
  · rcases List.mem_append.1 h1 with h2 | h2
    · rcases List.mem_map.1 h2 with ⟨m, hm, hxm⟩
      exact Or.inl ⟨m, hm, hxm.symm⟩
    · exact Or.inr h2

/-- The list produced by admission from history has unique ids. -/
theorem nodup_ids_mergeHistory (h : List Message) (prev : List TranslatedMessage) :
    (idsOf (mergeHistory h prev)).Nodup := by
  unfold mergeHistory
  exact ((idsOf_sortByTimestamp_perm _).nodup_iff).2 (nodup_ids_mapValues _)

/-- Every in-memory message of a duplicate-free list survives admission
from history untouched. -/
theorem mem_prev_mergeHistory {prev : List TranslatedMessage}
    (hnodup : (idsOf prev).Nodup) (h : List Message) {x : TranslatedMessage}
    (hx : x ∈ prev) : x ∈ mergeHistory h prev := by
  unfold mergeHistory
  rw [mem_sortByTimestamp]
  unfold mapValues
  rw [List.foldl_append]
  have hfold := mem_self_foldl_setKeyed hnodup
    (List.foldl setKeyed [] (h.map histAsTranslated)) x hx
  exact hfold

/-- Boolean sortedness check against the pairwise ordering. -/
theorem sortedByTsB_iff {l : List TranslatedMessage} :
    sortedByTsB l = true ↔ l.Pairwise (fun a b => a.timestamp ≤ b.timestamp) := by
  induction l with
  | nil => simp [sortedByTsB]
  | cons a t ih =>
    cases t with
    | nil => simp [sortedByTsB]
    | cons b t2 =>
      rw [sortedByTsB, Bool.and_eq_true, decide_eq_true_iff, ih]
      constructor
      · rintro ⟨hab, hp⟩
        refine List.pairwise_cons.2 ⟨?_, hp⟩
        intro y hy
        rcases List.mem_cons.1 hy with rfl | hy2
        · exact hab
        · exact le_trans hab ((List.pairwise_cons.1 hp).1 y hy2)
      · intro hp
        rcases List.pairwise_cons.1 hp with ⟨hall, hp2⟩
        exact ⟨hall b (List.mem_cons_self b t2), hp2⟩

/-- The timestamp sort always yields a sorted list. -/
theorem sortedByTsB_sortByTimestamp (l : List TranslatedMessage) :
    sortedByTsB (sortByTimestamp l) = true := by
  rw [sortedByTsB_iff]
  unfold sortByTimestamp
  exact pairwise_sortByKey (fun m => m.timestamp) l

/-- On a timestamp-sorted list, the first element satisfying a test has a
timestamp no later than any element satisfying the test. -/
theorem find_first_min {p : TranslatedMessage → Bool} {l : List TranslatedMessage}
    {u : TranslatedMessage}
    (hsorted : l.Pairwise (fun a b => a.timestamp ≤ b.timestamp))
    (hfind : l.find? p = some u) :
    ∀ m ∈ l, p m = true → u.timestamp ≤ m.timestamp := by
  induction l with
  | nil => simp at hfind
  | cons a t ih =>
    by_cases hpa : p a
    · rw [List.find?_cons_of_pos _ hpa] at hfind
      injection hfind with h
      subst h
      intro m hm _
      rcases List.mem_cons.1 hm with rfl | hm2
      · exact le_refl _
      · exact (List.pairwise_cons.1 hsorted).1 m hm2
    · rw [List.find?_cons_of_neg _ hpa] at hfind
      intro m hm hpm
      rcases List.mem_cons.1 hm with rfl | hm2
      · exact absurd hpm hpa
      · exact ih (List.pairwise_cons.1 hsorted).2 hfind m hm2 hpm

/-- The resolved-translation update preserves the own-message invariant:
an updated entry has isTranslating cleared, an untouched entry keeps its
invariant. -/
theorem applyOk_own_inv {l : List TranslatedMessage} {id0 t : String}
    {user : User}
    (hinv : ∀ y ∈ l, y.senderEmail = user.email → y.isTranslating = false) :
    ∀ m ∈ applyTranslationOk id0 t l, m.senderEmail = user.email →
      m.isTranslating = false := by
  intro m hm he
  rcases List.mem_map.1 hm with ⟨y, hy, hym⟩
  by_cases hbeq : y.id == id0
  · rw [if_pos hbeq] at hym
    rw [← hym]
  · rw [if_neg hbeq] at hym
    subst hym
    exact hinv y hy he

/-- The fallback update writes the captured original text and clears
isTranslating on the (unique) message with the captured id. -/
theorem applyTranslation_fallback {l : List TranslatedMessage}
    {u : TranslatedMessage} (hnodup : (idsOf l).Nodup) (hu : u ∈ l) :
    ∀ m ∈ applyTranslationErr u.id u.text l, m.id = u.id →
      m.translatedText = some m.text ∧ m.isTranslating = false := by
  intro m hm hid
  rcases List.mem_map.1 hm with ⟨y, hy, hym⟩
  by_cases hbeq : y.id == u.id
  · rw [if_pos hbeq] at hym
    have hyeq : y = u := List.inj_on_of_nodup_map hnodup hy hu (eq_of_beq hbeq)
    subst hyeq
    rw [← hym]
    exact ⟨rfl, rfl⟩
  · rw [if_neg hbeq] at hym
    subst hym
    exact absurd (beq_iff_eq.2 hid) hbeq

/-- The rejected-persistence branch of sendMessage in closed form. -/
theorem sendMessage_fail_eq (user : User) (s : AppState) (now : Nat)
    (e : String) (hne : strTrim s.inputText ≠ "") :
    sendMessage user now (SendOutcome.fail e) s =
      { messages := (s.messages ++ [optimisticMessage user s.inputText now]).filter
          (fun m => m.id != "temp-" ++ toString now)
        inputText := s.inputText
        error := some ("Send Failed: " ++ e) } := by
  have hcond : (strTrim s.inputText == "") = false := beq_eq_false_iff_ne.2 hne
  unfold sendMessage
  rw [if_neg (by simp [hcond])]

/-- Claim C4: for every sequence of admit-from-history and admit-from-live
operations, possibly with overlapping ids, the resulting message list
contains each id exactly once; and admitting the same persisted message a
second time via the live channel leaves the list unchanged (idempotent
ingestion). -/
theorem admission_id_unique (user : User) (ops : List AdmitOp)
    (prev : List TranslatedMessage) (msg : Message) :
    (idsOf (runAdmits user ops)).Nodup ∧
      processMessage user (processMessage user prev msg) msg =
        processMessage user prev msg := by
  constructor
  · unfold runAdmits
    have main : ∀ (l : List AdmitOp) (s : List TranslatedMessage),
        (idsOf s).Nodup → (idsOf (List.foldl (applyAdmit user) s l)).Nodup := by
      intro l
      induction l with
      | nil => intro s hs; exact hs
      | cons op t ih =>
        intro s hs
        refine ih _ ?_
        cases op with
        | hist h => exact nodup_ids_mergeHistory h s
        | live m => exact nodup_ids_processMessage user m hs
    exact main ops [] (by simp [idsOf])
  · exact processMessage_idem user prev msg

/-- Claim C10: when admit-from-history merges fetched history with the
in-memory list and an id occurs in both, the in-memory version is kept
exactly as it is (annotations included) and the fetched row for that id is
discarded: every in-memory message survives the merge, and every merged
message whose id was already in memory is that in-memory message. -/
theorem history_merge_keeps_memory (h : List Message)
    (prev : List TranslatedMessage) (hnodup : (idsOf prev).Nodup) :
    (∀ m ∈ prev, m ∈ mergeHistory h prev) ∧
      (∀ m ∈ mergeHistory h prev, m.id ∈ idsOf prev → m ∈ prev) := by
  constructor
  · intro m hm
    exact mem_prev_mergeHistory hnodup h hm
  · intro m hm hid
    rcases mem_idsOf.1 hid with ⟨p, hp, hpid⟩
    have hpmem : p ∈ mergeHistory h prev := mem_prev_mergeHistory hnodup h hp
    have hnod := nodup_ids_mergeHistory h prev
    have heq : m = p := List.inj_on_of_nodup_map hnod hm hpmem hpid.symm
    exact heq ▸ hp

/-- Claim C10 witness: a live-admitted message that already carries a
translation annotation survives a later history merge untouched. -/
theorem history_merge_keeps_memory_witness :
    annotatedSpanish ∈ mergeHistory [spanishMsg] [annotatedSpanish] := by
  have h := history_merge_keeps_memory [spanishMsg] [annotatedSpanish] (by decide)
  exact h.1 annotatedSpanish (List.mem_singleton.2 rfl)

/-- Claim C8: for every optimistic send whose persistence fails, the
temporary message is removed from the list by its id (when the temp id was
fresh the list is exactly restored), the input draft is restored to the
sent text, and the error is surfaced as a user-visible error state;
sendMessage is total, so the session survives. -/
theorem send_failure_rollback (user : User) (s : AppState) (now : Nat)
    (e : String) (hne : strTrim s.inputText ≠ "") :
    (sendMessage user now (SendOutcome.fail e) s).inputText = s.inputText ∧
    (sendMessage user now (SendOutcome.fail e) s).error =
      some ("Send Failed: " ++ e) ∧
    (∀ m ∈ (sendMessage user now (SendOutcome.fail e) s).messages,
        m.id ≠ "temp-" ++ toString now) ∧
    (("temp-" ++ toString now) ∉ idsOf s.messages →
        (sendMessage user now (SendOutcome.fail e) s).messages = s.messages) := by
  rw [sendMessage_fail_eq user s now e hne]
  refine ⟨rfl, rfl, ?_, ?_⟩
  · intro m hm
    have := (List.mem_filter.1 hm).2
    exact bne_iff_ne.1 this
  · intro hfresh
    show (s.messages ++ [optimisticMessage user s.inputText now]).filter
        (fun m => m.id != "temp-" ++ toString now) = s.messages
    rw [List.filter_append]
    have h1 : s.messages.filter (fun m => m.id != "temp-" ++ toString now) =
        s.messages := by
      refine List.filter_eq_self.2 ?_
      intro m hm
      refine bne_iff_ne.2 ?_
      intro heq
      exact hfresh (heq ▸ mem_idsOf.2 ⟨m, hm, rfl⟩)
    have h2 : [optimisticMessage user s.inputText now].filter
        (fun m => m.id != "temp-" ++ toString now) = [] := by
      simp [optimisticMessage]
    rw [h1, h2, List.append_nil]

/-- Claim C8 witness: a rejected send of the draft hi restores the draft,
surfaces the error and leaves the (previously empty) list empty. -/
theorem send_failure_rollback_witness :
    (sendMessage viewer 7 (SendOutcome.fail "WriteRejected")
        { messages := [], inputText := "hi", error := none }).inputText = "hi" ∧
    (sendMessage viewer 7 (SendOutcome.fail "WriteRejected")
        { messages := [], inputText := "hi", error := none }).messages = [] := by
  have h := send_failure_rollback viewer
    { messages := [], inputText := "hi", error := none } 7 "WriteRejected"
    (by decide)
  exact ⟨h.1, h.2.2.2 (by decide)⟩

/-- Claim C2 counterexample: the spec scenario itself fails.  A history
row with sender language es and a sender email different from the en
viewer is eligible for translation, yet after admission from history its
isTranslating is false, not true — initRoom merges raw history rows
without attaching any annotation. -/
theorem history_admission_not_marked_cex :
    spanishMsg.senderEmail ≠ viewer.email ∧
    spanishMsg.senderLanguage ≠ viewer.preferredLanguage ∧
    (∃ m ∈ mergeHistory [spanishMsg] [], m.id = spanishMsg.id) ∧
    (∀ m ∈ mergeHistory [spanishMsg] [], m.isTranslating = false) := by
  exact ⟨by decide, by decide, by decide, by decide⟩

/-- Claim C2 (amended): admission from the live channel marks eligible
messages (sender email and sender language both differing from the
viewer's) with isTranslating true and no translatedText; admission from
history attaches no annotation: a newly admitted history message has
isTranslating false and no translatedText even when eligible. -/
theorem translation_marking_at_admission (user : User)
    (prev : List TranslatedMessage) (msg : Message) (h : List Message)
    (hfresh : msg.id ∉ idsOf prev)
    (helig : msg.senderEmail ≠ user.email ∧
      msg.senderLanguage ≠ user.preferredLanguage) :
    (∀ m ∈ processMessage user prev msg, m.id = msg.id →
        m.isTranslating = true ∧ m.translatedText = none) ∧
    (∀ m ∈ mergeHistory h prev, m.id ∉ idsOf prev →
        m.isTranslating = false ∧ m.translatedText = none) := by
  constructor
  · intro m hm hid
    rcases processMessage_mem_cases hm with rfl | hmem
    · constructor
      · show (msg.senderLanguage != user.preferredLanguage &&
            msg.senderEmail != user.email) = true
        rw [Bool.and_eq_true]
        exact ⟨bne_iff_ne.2 helig.2, bne_iff_ne.2 helig.1⟩
      · rfl
    · exact absurd (mem_idsOf.2 ⟨m, hmem, hid⟩) hfresh
  · intro m hm hid
    rcases mem_mergeHistory_cases hm with ⟨m0, _, rfl⟩ | hmem
    · exact ⟨rfl, rfl⟩
    · exact absurd (mem_idsOf.2 ⟨m, hmem, rfl⟩) hid

/-- Claim C2 witness: the eligible Spanish message admitted live into an
empty room is marked isTranslating with no translatedText. -/
theorem translation_marking_at_admission_witness :
    ∃ m ∈ processMessage viewer [] spanishMsg,
      m.id = spanishMsg.id ∧ m.isTranslating = true ∧ m.translatedText = none := by
  have h := translation_marking_at_admission viewer [] spanishMsg []
    (by decide) ⟨by decide, by decide⟩
  rcases processMessage_id_mem viewer [] spanishMsg with ⟨x, hx, hid⟩
  exact ⟨x, hx, hid, (h.1 x hx hid).1, (h.1 x hx hid).2⟩

/-- Claim C5 counterexample: the claim fails on a duplicate delivery.
With the server row already in the list and a matching temp- placeholder
present (the viewer sent the identical text again), a repeated live event
for the same id is discarded by the id check that runs before the
temp match, so the placeholder is not replaced and remains in the list. -/
theorem duplicate_delivery_keeps_placeholder_cex :
    isTempMatch liveSelfHi placeholderHi = true ∧
    placeholderHi ∈ ([confirmedHi, placeholderHi] : List TranslatedMessage) ∧
    processMessage viewer [confirmedHi, placeholderHi] liveSelfHi =
      [confirmedHi, placeholderHi] ∧
    "temp-200" ∈ idsOf (processMessage viewer [confirmedHi, placeholderHi] liveSelfHi) := by
  exact ⟨by decide, by decide, by decide, by decide⟩

/-- Claim C5 (amended): when a persisted message whose id is not yet in
the list arrives on the live channel and the list (with unique ids)
contains a temp- placeholder with the same senderEmail and the same text,
the placeholder is replaced by the persisted message: afterwards the list
contains the server id exactly once and no longer contains that temporary
id.  When the arriving id is already present the event is discarded as a
duplicate and the placeholder is left untouched. -/
theorem temp_replacement_unique (user : User) (prev : List TranslatedMessage)
    (msg : Message) (i : Nat) (hi : i < prev.length)
    (hnodup : (idsOf prev).Nodup)
    (hfresh : msg.id ∉ idsOf prev)
    (hfind : findIndexP (isTempMatch msg) prev = some i) :
    msg.id ∈ idsOf (processMessage user prev msg) ∧
    (idsOf (processMessage user prev msg)).Nodup ∧
    (prev.get ⟨i, hi⟩).id ∉ idsOf (processMessage user prev msg) ∧
    strStartsWith (prev.get ⟨i, hi⟩).id "temp-" = true := by
  have hc2 : prev.any (fun m => m.id == msg.id) = false :=
    Bool.eq_false_iff.2 (fun hany => hfresh (any_id_eq_true.1 hany))
  have heq := @processMessage_eq_replace user prev msg i hc2 hfind
  have hidset : idsOf (prev.set i (liveAsTranslated user msg)) =
      (idsOf prev).set i msg.id := by
    unfold idsOf
    rw [List.map_set]
    rfl
  have hpermids := idsOf_sortByTimestamp_perm (prev.set i (liveAsTranslated user msg))
  refine ⟨?_, ?_, ?_, ?_⟩
  · rw [heq]
    exact mem_idsOf.2 ⟨liveAsTranslated user msg,
      mem_sortByTimestamp.2 (mem_set_self hi _), rfl⟩
  · exact nodup_ids_processMessage user msg hnodup
  · rw [heq]
    intro hmem
    have hmem2 : (prev.get ⟨i, hi⟩).id ∈ (idsOf prev).set i msg.id := by
      rw [← hidset]
      exact hpermids.mem_iff.1 hmem
    have hlen : i < (idsOf prev).length := by
      unfold idsOf
      rw [List.length_map]
      exact hi
    have hgetid : (idsOf prev).get ⟨i, hlen⟩ = (prev.get ⟨i, hi⟩).id := by
      unfold idsOf
      simp [List.get_eq_getElem, List.getElem_map]
    have htne : (prev.get ⟨i, hi⟩).id ≠ msg.id := by
      intro hcontra
      exact hfresh (hcontra ▸ mem_idsOf.2 ⟨prev.get ⟨i, hi⟩, List.get_mem prev i hi, rfl⟩)
    have hnot := get_not_mem_set hlen hnodup (by rw [hgetid]; exact htne)
    rw [hgetid] at hnot
    exact hnot hmem2
  · rcases findIndexP_some hfind with ⟨hi2, hp⟩
    have hp2 : isTempMatch msg (prev.get ⟨i, hi⟩) = true := hp
    unfold isTempMatch at hp2
    rw [Bool.and_eq_true, Bool.and_eq_true] at hp2
    exact hp2.1.1

/-- Claim C5 witness: the confirming live event with the fresh server id
42 replaces the matching temp-200 placeholder. -/
theorem temp_replacement_unique_witness :
    "42" ∈ idsOf (processMessage viewer [placeholderHi] liveSelfHi) ∧
    "temp-200" ∉ idsOf (processMessage viewer [placeholderHi] liveSelfHi) := by
  have h := temp_replacement_unique viewer [placeholderHi] liveSelfHi 0
    (by decide) (by decide) (by decide) (by decide)
  exact ⟨h.1, h.2.2.1⟩

/-- Claim C6 counterexample: a state reachable by admitting a live
message with timestamp 100 and then sending optimistically at local time
50 (a clock behind the store's) has an unsorted message list — the
optimistic send appends at the tail without re-sorting. -/
theorem optimistic_send_breaks_order_cex :
    ∃ s : PipeState, Reachable viewer s ∧ sortedByTsB s.messages = false := by
  have h1 : PipeStep viewer { messages := [], pending := [] } pipe1 :=
    PipeStep.live { messages := [], pending := [] } spanishMsg
  have h2 : PipeStep viewer pipe1
      { messages := pipe1.messages ++ [optimisticMessage viewer "hi" 50]
        pending := pipe1.pending } :=
    PipeStep.send pipe1 "hi" 50 (by decide)
  refine ⟨_, Relation.ReflTransGen.tail (Relation.ReflTransGen.single h1) h2, ?_⟩
  decide

/-- Claim C6 (amended): admission from the live channel and admission from
history always leave the list in non-decreasing timestamp order (a
duplicate live event keeps the previous, sorted, list); the optimistic
send appends at the tail without sorting, so after a send the list is
sorted exactly under the extra assumption that the local send time is at
least every timestamp already in the list. -/
theorem timestamp_order_after_ops (user : User) (prev : List TranslatedMessage)
    (msg : Message) (h : List Message) (text : String) (now : Nat)
    (hsorted : sortedByTsB prev = true)
    (hlate : ∀ m ∈ prev, m.timestamp ≤ now) :
    sortedByTsB (processMessage user prev msg) = true ∧
    sortedByTsB (mergeHistory h prev) = true ∧
    sortedByTsB (prev ++ [optimisticMessage user text now]) = true := by
  refine ⟨?_, ?_, ?_⟩
  · by_cases hc : prev.any (fun m => m.id == msg.id)
    · rw [processMessage_eq_of_dup hc]
      exact hsorted
    · have hc2 := Bool.eq_false_iff.2 hc
      cases hfind : findIndexP (isTempMatch msg) prev with
      | some i =>
        rw [processMessage_eq_replace hc2 hfind]
        exact sortedByTsB_sortByTimestamp _
      | none =>
        rw [processMessage_eq_append hc2 hfind]
        exact sortedByTsB_sortByTimestamp _
  · unfold mergeHistory
    exact sortedByTsB_sortByTimestamp _
  · rw [sortedByTsB_iff, List.pairwise_append]
    refine ⟨sortedByTsB_iff.1 hsorted, by simp, ?_⟩
    intro a ha b hb
    rcases List.mem_singleton.1 hb with rfl
    exact hlate a ha

/-- Claim C6 witness: with a send time later than the single admitted
message, the appended list is sorted. -/
theorem timestamp_order_after_ops_witness :
    sortedByTsB ([histAsTranslated spanishMsg] ++
      [optimisticMessage viewer "hi" 150]) = true := by
  have h := timestamp_order_after_ops viewer [histAsTranslated spanishMsg]
    spanishMsg [] "hi" 150 (by decide) (by decide)
  exact h.2.2

/-- Claim C7: when a translation attempt for the scanned message fails —
either translateText throws because the API key is missing (its only
throw), or the gateway errors, which translateText catches internally and
maps to the original text — the message ends with translatedText equal to
its own original text and isTranslating false, and the pipeline surfaces
no error: the error state is untouched and doTranslation is a total
function, so no exception escapes. -/
theorem translation_failure_fallback (apiKey : Option String)
    (g : GatewayOutcome) (s : AppState) (u : TranslatedMessage)
    (hnodup : (idsOf s.messages).Nodup)
    (hfind : findUntranslated s.messages = some u)
    (hfail : apiKey = none ∨ g = GatewayOutcome.err) :
    (doTranslation apiKey g s).error = s.error ∧
    (doTranslation apiKey g s).inputText = s.inputText ∧
    ∀ m ∈ (doTranslation apiKey g s).messages, m.id = u.id →
      m.translatedText = some m.text ∧ m.isTranslating = false := by
  have hu : u ∈ s.messages := List.mem_of_find?_eq_some hfind
  unfold doTranslation
  rw [hfind]
  rcases hfail with rfl | rfl
  · exact ⟨rfl, rfl, applyTranslation_fallback hnodup hu⟩
  · cases apiKey with
    | none => exact ⟨rfl, rfl, applyTranslation_fallback hnodup hu⟩
    | some k => exact ⟨rfl, rfl, applyTranslation_fallback hnodup hu⟩

/-- Claim C7 witness: with the API key missing, the translation of the
admitted Spanish message falls back to hola and no error state is set. -/
theorem translation_failure_fallback_witness :
    (doTranslation none GatewayOutcome.err translatingState).error = none ∧
    ∀ m ∈ (doTranslation none GatewayOutcome.err translatingState).messages,
      m.id = "1" → m.translatedText = some m.text ∧ m.isTranslating = false := by
  have h := translation_failure_fallback none GatewayOutcome.err
    translatingState (liveAsTranslated viewer spanishMsg) (by decide)
    (by decide) (Or.inl rfl)
  exact ⟨h.1, h.2.2⟩

/-- Claim C9: in every reachable pipeline state, no message whose
senderEmail equals the viewing user's email has isTranslating true — after
optimistic sends, admissions from history, admissions from the live
channel, temp replacements, rollbacks and translation completions. -/
theorem own_messages_never_translating (user : User) (s : PipeState)
    (h : Reachable user s) :
    ∀ m ∈ s.messages, m.senderEmail = user.email → m.isTranslating = false := by
  unfold Reachable at h
  induction h with
  | refl => intro m hm; simp at hm
  | tail hab hstep ih =>
    intro m hm hemail
    cases hstep with
    | live msg =>
      rcases processMessage_mem_cases hm with rfl | hmem
      · show (msg.senderLanguage != user.preferredLanguage &&
            msg.senderEmail != user.email) = false
        have he : msg.senderEmail = user.email := hemail
        rw [he]
        simp
      · exact ih m hmem hemail
    | history hl =>
      rcases mem_mergeHistory_cases hm with ⟨m0, _, rfl⟩ | hmem
      · rfl
      · exact ih m hmem hemail
    | send text now hne =>
      rcases List.mem_append.1 hm with hmem | hmem
      · exact ih m hmem hemail
      · rcases List.mem_singleton.1 hmem with rfl
        rfl
    | rollback now =>
      exact ih m (List.mem_filter.1 hm).1 hemail
    | scan u hu =>
      exact ih m hm hemail
    | finishOk r translated hr =>
      exact applyOk_own_inv ih m hm hemail
    | finishErr r hr =>
      exact applyOk_own_inv ih m hm hemail

/-- Claim C9 witness: the optimistic message of a reachable
one-send state is the viewer's own and is not translating. -/
theorem own_messages_never_translating_witness :
    (optimisticMessage viewer "hi" 9).isTranslating = false := by
  have hreach : Reachable viewer
      { messages := [] ++ [optimisticMessage viewer "hi" 9], pending := [] } :=
    Relation.ReflTransGen.single
      (PipeStep.send { messages := [], pending := [] } "hi" 9 (by decide))
  exact own_messages_never_translating viewer _ hreach
    (optimisticMessage viewer "hi" 9)
    (List.mem_append.2 (Or.inr (List.mem_singleton.2 rfl))) rfl

/-- Claim C3 counterexample: a reachable pipeline state with two
outstanding translation requests.  The translation effect re-runs on
every list change with no in-flight guard, so after a second message is
admitted while the first request is still pending, the effect issues a
second request (here even for the same message) — translation work is not
serialized to at most one outstanding request. -/
theorem two_outstanding_requests_cex :
    ∃ s : PipeState, Reachable viewer s ∧ 2 ≤ s.pending.length := by
  have h1 : PipeStep viewer { messages := [], pending := [] } pipe1 :=
    PipeStep.live { messages := [], pending := [] } spanishMsg
  have h2 : PipeStep viewer pipe1 pipe2 :=
    PipeStep.scan pipe1 (liveAsTranslated viewer spanishMsg) (by decide)
  have h3 : PipeStep viewer pipe2 pipe3 :=
    PipeStep.live pipe2 frenchMsg
  have h4 : PipeStep viewer pipe3 pipe4 :=
    PipeStep.scan pipe3 (liveAsTranslated viewer spanishMsg) (by decide)
  refine ⟨pipe4, ?_, by decide⟩
  exact Relation.ReflTransGen.tail (Relation.ReflTransGen.tail
    (Relation.ReflTransGen.tail (Relation.ReflTransGen.single h1) h2) h3) h4

/-- Claim C3 (amended): each translation request, at the moment it is
issued, is for the first message of the list with isTranslating true and
no (falsy) translatedText — on a timestamp-sorted list this message has a
timestamp no later than any other such candidate; but the effect re-scans
on every list change without waiting for the outstanding request to
complete, so more than one request can be outstanding at a time and
translation work is not serialized. -/
theorem translation_selects_first_untranslated (l : List TranslatedMessage)
    (u : TranslatedMessage)
    (hsorted : sortedByTsB l = true)
    (hfind : findUntranslated l = some u) :
    u ∈ l ∧ u.isTranslating = true ∧ jsFalsyText u.translatedText = true ∧
    ∀ m ∈ l, m.isTranslating = true → jsFalsyText m.translatedText = true →
      u.timestamp ≤ m.timestamp := by
  have hu : u ∈ l := List.mem_of_find?_eq_some hfind
  have hp := List.find?_some hfind
  rw [Bool.and_eq_true] at hp
  refine ⟨hu, hp.1, hp.2, ?_⟩
  intro m hm h1 h2
  refine find_first_min (sortedByTsB_iff.1 hsorted) hfind m hm ?_
  rw [h1, h2]
  rfl

/-- Claim C3 witness: on a sorted list with two untranslated candidates,
the scanned message is the earlier one. -/
theorem translation_selects_first_untranslated_witness :
    (liveAsTranslated viewer spanishMsg).timestamp ≤
      (liveAsTranslated viewer frenchMsg).timestamp := by
  have h := translation_selects_first_untranslated
    [liveAsTranslated viewer spanishMsg, liveAsTranslated viewer frenchMsg]
    (liveAsTranslated viewer spanishMsg) (by decide) (by decide)
  exact h.2.2.2 (liveAsTranslated viewer frenchMsg) (by decide) (by decide)
    (by decide)

/-- Claim C1 counterexample: on a room table of 51 rows at creation times
0 to 50, fetchHistory returns the rows with creation times 0 to 49 — the
query orders ascending and caps at 50, keeping the 50 OLDEST rows — while
the claim demands the 50 most recent, creation times 1 to 50 ascending,
and in particular the newest row (creation time 50, present in the table)
is missing from the result. -/
theorem fetchHistory_not_most_recent_cex :
    histTable.length = 51 ∧
    (∀ r ∈ histTable, r.room_id = "R") ∧
    (∃ r ∈ histTable, r.created_at = 50) ∧
    (fetchHistory histTable "R").map (fun m => m.timestamp) = List.range 50 ∧
    (fetchHistory histTable "R").map (fun m => m.timestamp) ≠
      (List.range 50).map (fun n => n + 1) := by
  exact ⟨by decide, by decide, by decide, by decide, by decide⟩

/-- Claim C1 (amended): for every room, fetchHistory returns up to 50 of
the OLDEST persisted messages of that room, ordered oldest-first: the
result length is the room's row count capped at 50, the result is sorted
ascending by creation time, every returned message comes from a row of the
room, and every returned message is among the 50 earliest — fewer than 50
room rows have a strictly earlier creation time. -/
theorem fetchHistory_oldest_cap (table : List DbRow) (roomId : String) :
    (fetchHistory table roomId).length =
      min 50 (table.filter (fun r => r.room_id == roomId)).length ∧
    (fetchHistory table roomId).Pairwise
      (fun a b => a.timestamp ≤ b.timestamp) ∧
    (∀ m ∈ fetchHistory table roomId,
        ∃ r ∈ table, r.room_id = roomId ∧ rowToMessage r = m) ∧
    (∀ m ∈ fetchHistory table roomId,
        ((table.filter (fun r => r.room_id == roomId)).filter
          (fun r => decide (r.created_at < m.timestamp))).length < 50) := by
  refine ⟨?_, ?_, ?_, ?_⟩
  · unfold fetchHistory
    rw [List.length_map, List.length_take,
      (sortByKey_perm DbRow.created_at _).length_eq]
  · unfold fetchHistory
    refine List.Pairwise.map rowToMessage (fun a b hab => hab) ?_
    exact List.Pairwise.sublist (List.take_sublist 50 _)
      (pairwise_sortByKey DbRow.created_at _)
  · intro m hm
    unfold fetchHistory at hm
    rcases List.mem_map.1 hm with ⟨r, hr, hrm⟩
    have hr2 : r ∈ table.filter (fun r => r.room_id == roomId) :=
      (sortByKey_perm DbRow.created_at _).mem_iff.1
        (List.mem_of_mem_take hr)
    rcases List.mem_filter.1 hr2 with ⟨hrt, hroom⟩
    exact ⟨r, hrt, eq_of_beq hroom, hrm⟩
  · intro m hm
    unfold fetchHistory at hm
    rcases List.mem_map.1 hm with ⟨r, hr, hrm⟩
    rcases List.mem_take_iff_getElem.1 hr with ⟨k, hk, hrk⟩
    have hk50 : k < 50 := lt_of_lt_of_le hk inf_le_left
    have hsorted := pairwise_sortByKey DbRow.created_at
      (table.filter (fun r => r.room_id == roomId))
    have hget := List.pairwise_iff_getElem.1 hsorted
    have hperm := sortByKey_perm DbRow.created_at
      (table.filter (fun r => r.room_id == roomId))
    have hcnt := (List.Perm.filter
      (fun r => decide (r.created_at < m.timestamp)) hperm).length_eq
    rw [← hcnt]
    set srt := sortByKey DbRow.created_at
      (table.filter (fun r => r.room_id == roomId)) with hsrt
    have hks : k < srt.length := lt_of_lt_of_le hk inf_le_right
    have hmts : m.timestamp = r.created_at := by
      rw [← hrm]
      rfl
    have hdrop : ∀ x ∈ srt.drop k,
        (fun r => decide (r.created_at < m.timestamp)) x = false := by
      intro x hx
      rcases List.mem_iff_getElem.1 hx with ⟨j, hj, hxj⟩
      have hkj : k + j < srt.length := by
        have := hj
        rw [List.length_drop] at this
        omega
      have hxv : x = srt[k + j] := by
        rw [← hxj, List.getElem_drop]
      have hle : srt[k].created_at ≤ srt[k + j].created_at := by
        rcases Nat.eq_zero_or_pos j with rfl | hjpos
        · exact le_refl _
        · exact hget k (k + j) hks hkj (by omega)
      have hrv : srt[k] = r := hrk
      rw [decide_eq_false_iff_not]
      rw [hmts, hxv, ← hrv]
      omega
    have hsplit : srt = srt.take k ++ srt.drop k :=
      (List.take_append_drop k srt).symm
    rw [hsplit, List.filter_append]
    have hdnil : (srt.drop k).filter
        (fun r => decide (r.created_at < m.timestamp)) = [] := by
      rw [List.filter_eq_nil_iff]
      intro a ha
      simpa using hdrop a ha
    rw [hdnil, List.append_nil]
    have htk : ((srt.take k).filter
        (fun r => decide (r.created_at < m.timestamp))).length ≤ k := by
      calc ((srt.take k).filter _).length ≤ (srt.take k).length :=
            List.length_filter_le _ _
        _ ≤ k := by
            rw [List.length_take]
            exact inf_le_left
    omega

/-- Claim C1 witness: on the 51-row fixture table, the returned message at
creation time 0 has no earlier room row at all, hence fewer than 50. -/
theorem fetchHistory_oldest_cap_witness :
    ((histTable.filter (fun r => r.room_id == "R")).filter
      (fun r => decide (r.created_at <
        (rowToMessage (histRow 0)).timestamp))).length < 50 := by
  have h := fetchHistory_oldest_cap histTable "R"
  exact h.2.2.2 (rowToMessage (histRow 0)) (by decide)

end JeriChat
